import Mathlib

/-!
Verification of the asset server in `game/assets/server/server.py`.

Python strings are modeled as lists of characters (`Str`), byte contents as
lists of naturals, and the filesystem as an association list from absolute
path strings to entries.  Every definition below is translated from the code
the handlers execute: `os.path.join`, `os.path.abspath` (which on the
absolute inputs arising here is `posixpath.normpath`), `os.path.commonprefix`,
`os.path.split`, `os.makedirs`, the `open(..., "wb")` write, and Flask 1.x
`send_from_directory`.
-/

set_option autoImplicit false

abbrev Str := List Char

/-- Componentization of a POSIX path string: split on the separator `'/'`
(the component scan of `posixpath.normpath`), so
`splitOnSlash "a/b" = ["a", "b"]` and `splitOnSlash "" = [""]`. -/
def splitOnSlash : Str → List Str
  | [] => [[]]
  | c :: rest =>
    match splitOnSlash rest with
    | [] => [[]]
    | s :: ss => if c = '/' then [] :: s :: ss else (c :: s) :: ss

/-- One step of `posixpath.normpath`'s component scan for an absolute path:
empty components and `.` are dropped, `..` pops the last kept component (and
is discarded when already at the root), anything else is kept. -/
def normStep (acc : List Str) (seg : Str) : List Str :=
  if seg = [] ∨ seg = ['.'] then acc
  else if seg = ['.', '.'] then acc.dropLast
  else acc ++ [seg]

/-- The normalized component list of an absolute path given by its raw
component list. -/
def normSegsList (segs : List Str) : List Str := segs.foldl normStep []

/-- Join components with `'/'` separators: `interSlash ["a","b"] = "a/b"`. -/
def interSlash : List Str → Str
  | [] => []
  | [s] => s
  | s :: rest => s ++ '/' :: interSlash rest

/-- Render a normalized component list as an absolute path string:
`renderAbs ["a","b"] = "/a/b"`, `renderAbs [] = "/"`. -/
def renderAbs (segs : List Str) : Str := '/' :: interSlash segs

/-- Model of `os.path.abspath` on an absolute input, i.e.
`posixpath.normpath`.  (CPython preserves exactly two leading slashes; no
path examined in this file begins with `"//"`, so that corner is not
modeled.) -/
def abspath (p : Str) : Str := renderAbs (normSegsList (splitOnSlash p))

/-- Model of `os.path.join(a, b)` for POSIX paths: an absolute `b` discards
`a`; otherwise `b` is appended to `a`, inserting a `'/'` unless `a` is empty
or already ends with one. -/
def pyJoin (a b : Str) : Str :=
  if b.head? = some '/' then b
  else if a = [] ∨ a.getLast? = some '/' then a ++ b
  else a ++ '/' :: b

/-- Model of `os.path.commonprefix([a, b])`: the longest common leading run
of characters of the two strings (a purely textual operation). -/
def commonpfx : Str → Str → Str
  | x :: xs, y :: ys => if x = y then x :: commonpfx xs ys else []
  | _, _ => []

/-- Model of `os.path.split(p)`: `tail` is the longest slash-free suffix of
`p`, `head` is the rest (`p = head ++ tail`); a `head` containing some
non-slash character is stripped of its trailing slashes. -/
def pySplit (p : Str) : Str × Str :=
  let tail := (p.reverse.takeWhile (fun c => c != '/')).reverse
  let head := (p.reverse.dropWhile (fun c => c != '/')).reverse
  if head.any (fun c => c != '/') then
    ((head.reverse.dropWhile (fun c => c == '/')).reverse, tail)
  else (head, tail)

/-- A filesystem entry: a regular file with byte content, or a directory. -/
inductive Entry where
  | file (content : List Nat) : Entry
  | dir : Entry
deriving DecidableEq

/-- The filesystem: an association list from absolute path strings to
entries; the first binding for a path wins. -/
abbrev FS := List (Str × Entry)

/-- Look up the entry stored at path `p`. -/
def fsLookup (fs : FS) (p : Str) : Option Entry :=
  match fs with
  | [] => none
  | (q, e) :: rest => if q = p then some e else fsLookup rest p

/-- Outcome of the GET handler: HTTP 400 `"outside of sandbox"`, Flask's 404
`NotFound`, or HTTP 200 with the file bytes and the attachment filename. -/
inductive GetResult where
  | outOfSandbox : GetResult
  | notFound : GetResult
  | file (content : List Nat) (attachment : Str) : GetResult
deriving DecidableEq

/-- Flask 1.x `send_from_directory(directory, filename, as_attachment=True)`:
`safe_join` the two (here `filename` comes from `os.path.split`, hence is
slash-free and the join is `os.path.join`), answer 404 `NotFound` unless a
regular file exists there, else 200 serving its bytes with the attachment
name `os.path.basename`, i.e. `filename`. -/
def send_from_directory (fs : FS) (directory fname : Str) : GetResult :=
  match fsLookup fs (pyJoin directory fname) with
  | some (Entry.file c) => GetResult.file c fname
  | _ => GetResult.notFound

/-- Lines 15–24 of `server.py`: the GET handler, with the sandbox root
(`UPLOAD_DIRECTORY`) and the filesystem passed explicitly. -/
def get_file (root raw : Str) (fs : FS) : GetResult × FS :=
  let path := abspath (pyJoin root raw)
  if commonpfx path root ≠ root then (GetResult.outOfSandbox, fs)
  else
    let ds := pySplit (abspath path)
    (send_from_directory fs ds.1 ds.2, fs)

/-- Outcome of the POST handler: HTTP 201 with empty body, HTTP 400
`"outside of sandbox"`, the `UnboundLocalError` the handler actually raises,
or the `FileExistsError` raised by `os.makedirs` on an existing directory. -/
inductive PostResult where
  | created : PostResult
  | outOfSandbox : PostResult
  | unboundLocalError : PostResult
  | fileExistsError : PostResult
deriving DecidableEq

/-- Lines 30–40 of the POST handler under the counterfactual that the unbound
name `path` held the route parameter (as in `get_file`); the program never
reaches this code (see `post_file`); it is kept to document the unconditional
`os.makedirs` fault.  `os.makedirs(d)` (no `exist_ok`) raises
`FileExistsError` whenever an entry already exists at `d`; creation of
missing ancestors is elided because every execution examined in this file
hits the pre-existing case. -/
def post_file_body (root rawPath : Str) (body : List Nat) (fs : FS) : PostResult × FS :=
  let p := abspath (pyJoin root rawPath)
  if commonpfx p root ≠ root then (PostResult.outOfSandbox, fs)
  else
    let ds := pySplit (abspath p)
    match fsLookup fs ds.1 with
    | some _ => (PostResult.fileExistsError, fs)
    | none =>
      (PostResult.created, (pyJoin ds.1 ds.2, Entry.file body) :: (ds.1, Entry.dir) :: fs)

/-- The value of the name `path` when line 30 of `post_file` reads it: `path`
is a local of `post_file` (it is assigned on that very line) that is read
before the assignment completes, and no other binding exists, so the lookup
fails — modeled as `none`. -/
def pathLocalLookup : Option Str := none

/-- Lines 26–40 of `server.py`: the POST handler as written.  Its first
statement reads the local name `path` on the right-hand side of the
assignment that would create it (the route parameter is `filename`), so
Python raises `UnboundLocalError` before the sandbox check, `os.makedirs`,
or the file write can run; Flask surfaces this as an unhandled 500 and the
filesystem is left untouched. -/
def post_file (root fname : Str) (body : List Nat) (fs : FS) : PostResult × FS :=
  match pathLocalLookup with
  | some p =>
    -- dead branch: `pathLocalLookup = none`; `fname` and `body` would flow here
    let _ := fname
    let _ := body
    post_file_body root p body fs
  | none => (PostResult.unboundLocalError, fs)

/-- Line 6 of `server.py`:
`UPLOAD_DIRECTORY = os.path.abspath("cooked_assets/")`, a function of the
process working directory, given here by its component list. -/
def uploadDirectory (cwd : List Str) : Str :=
  abspath (pyJoin (renderAbs cwd) ("cooked_assets/").data)

/-- A canonical path component: nonempty, not `.` or `..`, slash-free.  The
components of any real process working directory are of this form. -/
def CleanSeg (s : Str) : Prop := s ≠ [] ∧ s ≠ ['.'] ∧ s ≠ ['.', '.'] ∧ '/' ∉ s

/-- All components of the list are canonical. -/
def CleanSegs (l : List Str) : Prop := ∀ s ∈ l, CleanSeg s

instance decCleanSeg (s : Str) : Decidable (CleanSeg s) :=
  inferInstanceAs (Decidable (_ ∧ _ ∧ _ ∧ _))

instance decCleanSegs (l : List Str) : Decidable (CleanSegs l) :=
  inferInstanceAs (Decidable (∀ s ∈ l, CleanSeg s))

/-- The normalized component list of the path a handler resolves for a
request: the components of `os.path.abspath(os.path.join(root, raw))`, so
that `abspath (pyJoin root raw) = renderAbs (resolveSegs root raw)` by
definition. -/
def resolveSegs (root raw : Str) : List Str :=
  normSegsList (splitOnSlash (pyJoin root raw))

/-- Total character count of a component list (proof-side measure). -/
def sumLen (l : List Str) : Nat := (l.map List.length).sum

/-- The fixed final component of the sandbox root: `"cooked_assets"`. -/
def cookedSeg : Str := "cooked_assets".data

/-- The raw traversal request of the spec scenario: `../../etc/passwd`. -/
def passwdRaw : Str := "../../etc/passwd".data

/-- Concrete sandbox root `/data/cooked_assets` (a process started in
`/data`), used by the concrete scenarios below. -/
def rootDCA : Str := "/data/cooked_assets".data

/-- A filesystem holding only the sandbox root directory, as created at
startup by lines 8–9 of `server.py`. -/
def fsRootOnly : FS := [(rootDCA, Entry.dir)]

/-- Raw GET path that normalizes to the sibling `/data/cooked_assets_evil/x`
of the sandbox root: the string-prefix collision attack. -/
def rawSibling : Str := "../cooked_assets_evil/x".data

/-- A filesystem with a secret file outside the sandbox, at the sibling path
`/data/cooked_assets_evil/x`. -/
def fsSibling : FS := [("/data/cooked_assets_evil/x".data, Entry.file [7]), (rootDCA, Entry.dir)]

/-- Upload filename of the spec scenario. -/
def heroRaw : Str := "hero.png".data

/-- Upload bytes of the spec scenario: `0xDE 0xAD 0xBE 0xEF`. -/
def heroBytes : List Nat := [222, 173, 190, 239]

/-- Raw GET path `sub` addressing a directory inside the sandbox. -/
def subRaw : Str := "sub".data

/-- A filesystem where `/data/cooked_assets/sub` is a directory. -/
def fsWithSubdir : FS := [("/data/cooked_assets/sub".data, Entry.dir), (rootDCA, Entry.dir)]

/-- Raw GET path `hero/junk/..` whose final raw segment is `..` but which
normalizes to the in-sandbox file `hero`. -/
def heroDotsRaw : Str := "hero/junk/..".data

/-- A filesystem where `/data/cooked_assets/hero` is a file with bytes
`[1, 2]`. -/
def fsHeroFile : FS := [("/data/cooked_assets/hero".data, Entry.file [1, 2]), (rootDCA, Entry.dir)]

/-! ### Basic lemmas about the path primitives -/

theorem splitOnSlash_ne_nil (l : Str) : splitOnSlash l ≠ [] := by
  cases l with
  | nil => exact fun h => List.noConfusion h
  | cons c rest =>
    unfold splitOnSlash
    cases splitOnSlash rest with
    | nil => exact fun h => List.noConfusion h
    | cons s ss =>
      by_cases hc : c = '/' <;> simp [hc]

theorem splitOnSlash_append_slash (a b : Str) :
    splitOnSlash (a ++ '/' :: b) = splitOnSlash a ++ splitOnSlash b := by
  induction a with
  | nil =>
    simp only [List.nil_append, splitOnSlash]
    cases hs : splitOnSlash b with
    | nil => exact absurd hs (splitOnSlash_ne_nil b)
    | cons s ss => simp
  | cons c a ih =>
    simp only [List.cons_append, splitOnSlash, List.append_eq]
    rw [ih]
    cases hs : splitOnSlash a with
    | nil => exact absurd hs (splitOnSlash_ne_nil a)
    | cons s ss =>
      by_cases hc : c = '/' <;> simp [hc]

theorem splitOnSlash_noSlash (l : Str) (h : '/' ∉ l) : splitOnSlash l = [l] := by
  induction l with
  | nil => rfl
  | cons c rest ih =>
    have hc : ¬ (c = '/') := by
      intro e; exact h (by simp [e])
    have hr : '/' ∉ rest := fun m => h (List.mem_cons_of_mem c m)
    simp only [splitOnSlash, ih hr]
    simp [hc]

theorem noSlash_of_mem_splitOnSlash {l s : Str} (h : s ∈ splitOnSlash l) : '/' ∉ s := by
  induction l generalizing s with
  | nil =>
    have : s = [] := by simpa [splitOnSlash] using h
    subst this; exact List.not_mem_nil '/'
  | cons c rest ih =>
    revert h
    unfold splitOnSlash
    cases hs : splitOnSlash rest with
    | nil => exact absurd hs (splitOnSlash_ne_nil rest)
    | cons t ts =>
      by_cases hc : c = '/'
      · simp only [hc, if_pos rfl]
        intro h
        rcases List.mem_cons.1 h with h | h
        · subst h; exact List.not_mem_nil '/'
        · exact ih (hs ▸ h)
      · simp only [if_neg hc]
        intro h
        rcases List.mem_cons.1 h with h | h
        · subst h
          intro hm
          rcases List.mem_cons.1 hm with e | hm
          · exact hc e.symm
          · exact ih (hs ▸ List.mem_cons_self t ts) hm
        · exact ih (hs ▸ List.mem_cons_of_mem t h)

/-! ### Normalization lemmas -/

theorem normStep_clean (acc : List Str) {s : Str} (hs : CleanSeg s) :
    normStep acc s = acc ++ [s] := by
  rcases hs with ⟨h1, h2, h3, _⟩
  unfold normStep
  rw [if_neg (by rintro (e | e); exacts [h1 e, h2 e]), if_neg h3]

theorem foldl_normStep_clean (segs : List Str) (acc : List Str)
    (hsegs : CleanSegs segs) :
    segs.foldl normStep acc = acc ++ segs := by
  induction segs generalizing acc with
  | nil => simp
  | cons s rest ih =>
    have hs := hsegs s (List.mem_cons_self s rest)
    have hrest : CleanSegs rest := fun t ht => hsegs t (List.mem_cons_of_mem s ht)
    rw [List.foldl_cons, normStep_clean acc hs, ih (acc ++ [s]) hrest]
    simp

theorem clean_foldl_normStep (segs : List Str) (acc : List Str)
    (hacc : CleanSegs acc) (hsegs : ∀ s ∈ segs, '/' ∉ s) :
    CleanSegs (segs.foldl normStep acc) := by
  induction segs generalizing acc with
  | nil => simpa using hacc
  | cons t rest ih =>
    rw [List.foldl_cons]
    refine ih (normStep acc t) ?_ (fun u hu => hsegs u (List.mem_cons_of_mem t hu))
    intro s hsmem
    by_cases h1 : t = [] ∨ t = ['.']
    · rw [normStep, if_pos h1] at hsmem
      exact hacc s hsmem
    · by_cases h2 : t = ['.', '.']
      · rw [normStep, if_neg h1, if_pos h2] at hsmem
        exact hacc s (List.dropLast_subset acc hsmem)
      · rw [normStep, if_neg h1, if_neg h2] at hsmem
        rcases List.mem_append.1 hsmem with h | h
        · exact hacc s h
        · have hst : s = t := List.mem_singleton.1 h
          subst hst
          exact ⟨fun e => h1 (Or.inl e), fun e => h1 (Or.inr e), h2,
            hsegs s (List.mem_cons_self s rest)⟩

theorem resolveSegs_clean (root raw : Str) : CleanSegs (resolveSegs root raw) := by
  unfold resolveSegs normSegsList
  exact clean_foldl_normStep _ []
    (fun s hs => absurd hs (List.not_mem_nil s))
    (fun s hs => noSlash_of_mem_splitOnSlash hs)

/-! ### The `commonprefix` check is a string prefix check -/

theorem commonpfx_eq_right_iff (a b : Str) :
    commonpfx a b = b ↔ ∃ t, a = b ++ t := by
  induction b generalizing a with
  | nil =>
    have h : commonpfx a [] = [] := by cases a <;> rfl
    simp [h]
  | cons y ys ih =>
    cases a with
    | nil =>
      constructor
      · intro h; exact absurd h (by simp [commonpfx])
      · rintro ⟨t, ht⟩; exact absurd ht (by simp)
    | cons x xs =>
      by_cases hxy : x = y
      · subst hxy
        rw [show commonpfx (x :: xs) (x :: ys) = x :: commonpfx xs ys from by
          simp [commonpfx]]
        simp only [List.cons_append, List.cons.injEq, eq_self_iff_true, true_and]
        exact ih xs
      · simp only [commonpfx, if_neg hxy, List.cons_append, List.cons.injEq]
        constructor
        · intro h; exact absurd h.symm (List.cons_ne_nil y ys)
        · rintro ⟨t, he, _⟩; exact absurd he hxy

theorem commonpfx_ne_of_length_lt (a b : Str) (h : a.length < b.length) :
    commonpfx a b ≠ b := by
  intro he
  rcases (commonpfx_eq_right_iff a b).1 he with ⟨t, ht⟩
  rw [ht, List.length_append] at h
  omega

/-! ### Rendering and measuring component lists -/

theorem interSlash_concat (xs : List Str) (y : Str) (h : xs ≠ []) :
    interSlash (xs ++ [y]) = interSlash xs ++ '/' :: y := by
  induction xs with
  | nil => exact absurd rfl h
  | cons s rest ih =>
    cases rest with
    | nil => rfl
    | cons t ts =>
      have h2 := ih (List.cons_ne_nil t ts)
      simp only [List.cons_append] at h2 ⊢
      show s ++ '/' :: interSlash (t :: (ts ++ [y]))
          = (s ++ '/' :: interSlash (t :: ts)) ++ '/' :: y
      rw [h2]
      simp

theorem interSlash_length (segs : List Str) (h : segs ≠ []) :
    (interSlash segs).length + 1 = sumLen segs + segs.length := by
  induction segs with
  | nil => exact absurd rfl h
  | cons s rest ih =>
    cases rest with
    | nil => simp [interSlash, sumLen]
    | cons t ts =>
      have h2 := ih (List.cons_ne_nil t ts)
      show (s ++ '/' :: interSlash (t :: ts)).length + 1 = _
      simp only [List.length_append, List.length_cons, sumLen, List.map_cons,
        List.sum_cons] at h2 ⊢
      omega

theorem renderAbs_length (segs : List Str) (h : segs ≠ []) :
    (renderAbs segs).length = sumLen segs + segs.length := by
  have h2 := interSlash_length segs h
  show ('/' :: interSlash segs).length = _
  simp only [List.length_cons]
  omega

theorem sumLen_dropLast_le (l : List Str) : sumLen l.dropLast ≤ sumLen l := by
  rcases List.eq_nil_or_concat l with h | ⟨xs, y, h⟩ <;> subst h
  · simp
  · rw [List.concat_eq_append, List.dropLast_concat]
    simp only [sumLen, List.map_append, List.sum_append]
    omega

/-! ### Splitting a rendered path recovers its components -/

theorem splitOnSlash_interSlash (segs : List Str) :
    segs ≠ [] → (∀ s ∈ segs, '/' ∉ s) → splitOnSlash (interSlash segs) = segs := by
  induction segs with
  | nil => intro h _; exact absurd rfl h
  | cons s rest ih =>
    intro _ hclean
    cases rest with
    | nil => exact splitOnSlash_noSlash s (hclean s (by simp))
    | cons t ts =>
      have hrest : ∀ u ∈ t :: ts, '/' ∉ u := fun u hu => hclean u (List.mem_cons_of_mem s hu)
      show splitOnSlash (s ++ '/' :: interSlash (t :: ts)) = s :: t :: ts
      rw [splitOnSlash_append_slash, splitOnSlash_noSlash s (hclean s (by simp)),
        ih (List.cons_ne_nil t ts) hrest]
      rfl

theorem splitOnSlash_renderAbs (segs : List Str) (h : segs ≠ [])
    (hclean : ∀ s ∈ segs, '/' ∉ s) :
    splitOnSlash (renderAbs segs) = [] :: segs := by
  show splitOnSlash ([] ++ '/' :: interSlash segs) = [] :: segs
  rw [splitOnSlash_append_slash, splitOnSlash_interSlash segs h hclean]
  rfl

theorem normSegsList_splitOnSlash_renderAbs (segs : List Str) (hclean : CleanSegs segs) :
    normSegsList (splitOnSlash (renderAbs segs)) = segs := by
  cases segs with
  | nil => rfl
  | cons s rest =>
    have hns : ∀ u ∈ s :: rest, '/' ∉ u := fun u hu => (hclean u hu).2.2.2
    rw [splitOnSlash_renderAbs (s :: rest) (List.cons_ne_nil s rest) hns]
    show ([] :: s :: rest).foldl normStep [] = s :: rest
    rw [List.foldl_cons]
    exact foldl_normStep_clean (s :: rest) [] hclean

theorem abspath_renderAbs (segs : List Str) (hclean : CleanSegs segs) :
    abspath (renderAbs segs) = renderAbs segs :=
  congrArg renderAbs (normSegsList_splitOnSlash_renderAbs segs hclean)

/-! ### The last character of a rendered path -/

theorem reverse_interSlash_head (segs : List Str) (h : segs ≠ []) (hclean : CleanSegs segs) :
    ∃ c cs, (interSlash segs).reverse = c :: cs ∧ c ≠ '/' := by
  rcases List.eq_nil_or_concat segs with he | ⟨xs, y, he⟩
  · exact absurd he h
  · rw [List.concat_eq_append] at he
    subst he
    have hy : CleanSeg y := hclean y (by simp)
    have hyrev : y.reverse ≠ [] := fun e => hy.1 (by simpa using congrArg List.reverse e)
    rcases List.exists_cons_of_ne_nil hyrev with ⟨c, cs, hcs⟩
    have hcmem : c ∈ y := by
      rw [← List.mem_reverse, hcs]
      exact List.mem_cons_self c cs
    have hc : c ≠ '/' := fun e => hy.2.2.2 (e ▸ hcmem)
    cases xs with
    | nil => exact ⟨c, cs, by simpa [interSlash] using hcs, hc⟩
    | cons x xt =>
      refine ⟨c, cs ++ '/' :: (interSlash (x :: xt)).reverse, ?_, hc⟩
      rw [interSlash_concat (x :: xt) y (List.cons_ne_nil x xt), List.reverse_append,
        List.reverse_cons, hcs]
      simp

theorem renderAbs_getLast_ne_slash (segs : List Str) (h : segs ≠ []) (hclean : CleanSegs segs) :
    (renderAbs segs).getLast? ≠ some '/' := by
  rcases reverse_interSlash_head segs h hclean with ⟨c, cs, hrev, hc⟩
  intro he
  have h1 : (renderAbs segs).reverse.head? = some '/' := by
    rw [List.head?_reverse]; exact he
  have h2 : (renderAbs segs).reverse = c :: (cs ++ ['/']) := by
    show ('/' :: interSlash segs).reverse = _
    rw [List.reverse_cons, hrev]
    simp
  rw [h2] at h1
  exact hc (by simpa using h1)

/-! ### takeWhile / dropWhile across an append -/

theorem takeWhile_append_neg (p : Char → Bool) (l₁ : Str) (x : Char) (l₂ : Str)
    (h1 : ∀ c ∈ l₁, p c = true) (hx : p x = false) :
    (l₁ ++ x :: l₂).takeWhile p = l₁ := by
  induction l₁ with
  | nil => simp [List.takeWhile_cons, hx]
  | cons c cs ih =>
    have hc := h1 c (List.mem_cons_self c cs)
    simp [List.takeWhile_cons, hc, ih (fun u hu => h1 u (List.mem_cons_of_mem c hu))]

theorem dropWhile_append_neg (p : Char → Bool) (l₁ : Str) (x : Char) (l₂ : Str)
    (h1 : ∀ c ∈ l₁, p c = true) (hx : p x = false) :
    (l₁ ++ x :: l₂).dropWhile p = x :: l₂ := by
  induction l₁ with
  | nil => simp [List.dropWhile_cons, hx]
  | cons c cs ih =>
    have hc := h1 c (List.mem_cons_self c cs)
    simp [List.dropWhile_cons, hc, ih (fun u hu => h1 u (List.mem_cons_of_mem c hu))]

theorem mem_interSlash_head (x : Str) (xt : List Str) {c : Char} (hc : c ∈ x) :
    c ∈ interSlash (x :: xt) := by
  cases xt with
  | nil => exact hc
  | cons t ts =>
    show c ∈ x ++ '/' :: interSlash (t :: ts)
    exact List.mem_append.2 (Or.inl hc)

/-! ### `os.path.split` on a canonical rendered path -/

theorem pySplit_renderAbs (segs : List Str) (hclean : CleanSegs segs) :
    pySplit (renderAbs segs) = (renderAbs segs.dropLast, segs.getLastD []) := by
  rcases List.eq_nil_or_concat segs with he | ⟨xs, y, he⟩
  · subst he; decide
  · rw [List.concat_eq_append] at he
    subst he
    have hy : CleanSeg y := hclean y (by simp)
    have hyrev : ∀ c ∈ y.reverse, (fun c => c != '/') c = true := by
      intro c hcm
      have : c ≠ '/' := fun e => hy.2.2.2 (e ▸ List.mem_reverse.1 hcm)
      simpa [bne_iff_ne]
    rw [List.dropLast_concat, List.getLastD_concat]
    cases xs with
    | nil =>
      have hrev : (renderAbs [y]).reverse = y.reverse ++ '/' :: [] := by
        show ('/' :: interSlash [y]).reverse = _
        simp [interSlash]
      have htake : ((renderAbs [y]).reverse.takeWhile (fun c => c != '/')) = y.reverse := by
        rw [hrev]
        exact takeWhile_append_neg _ _ _ _ hyrev (by decide)
      have hdrop : ((renderAbs [y]).reverse.dropWhile (fun c => c != '/')) = '/' :: [] := by
        rw [hrev]
        exact dropWhile_append_neg _ _ _ _ hyrev (by decide)
      show pySplit (renderAbs [y]) = (renderAbs [], y)
      unfold pySplit
      rw [htake, hdrop]
      simp [renderAbs, interSlash]
    | cons x xt =>
      have hxt : CleanSegs (x :: xt) :=
        fun s hs => hclean s (List.mem_append.2 (Or.inl hs))
      rcases reverse_interSlash_head (x :: xt) (List.cons_ne_nil x xt) hxt with
        ⟨d, ds, hds, hd⟩
      have hconc : interSlash ((x :: xt) ++ [y])
          = interSlash (x :: xt) ++ '/' :: y :=
        interSlash_concat (x :: xt) y (List.cons_ne_nil x xt)
      have hrev : (renderAbs ((x :: xt) ++ [y])).reverse
          = y.reverse ++ '/' :: ((interSlash (x :: xt)).reverse ++ '/' :: []) := by
        show ('/' :: interSlash ((x :: xt) ++ [y])).reverse = _
        rw [List.reverse_cons, hconc, List.reverse_append, List.reverse_cons]
        simp
      have htake : ((renderAbs ((x :: xt) ++ [y])).reverse.takeWhile (fun c => c != '/'))
          = y.reverse := by
        rw [hrev]
        exact takeWhile_append_neg _ _ _ _ hyrev (by decide)
      have hdrop : ((renderAbs ((x :: xt) ++ [y])).reverse.dropWhile (fun c => c != '/'))
          = '/' :: ((interSlash (x :: xt)).reverse ++ '/' :: []) := by
        rw [hrev]
        exact dropWhile_append_neg _ _ _ _ hyrev (by decide)
      -- x is a nonempty slash-free component; its head char witnesses `any`
      have hx : CleanSeg x := hxt x (List.mem_cons_self x xt)
      rcases List.exists_cons_of_ne_nil hx.1 with ⟨c0, crest, hx0⟩
      have hc0x : c0 ∈ x := hx0 ▸ List.mem_cons_self c0 crest
      have hc0 : c0 ≠ '/' := fun e => hx.2.2.2 (e ▸ hc0x)
      -- the head computed by `os.path.split`, before stripping
      have hhead : ('/' :: ((interSlash (x :: xt)).reverse ++ '/' :: [])).reverse
          = ('/' :: interSlash (x :: xt)) ++ '/' :: [] := by
        simp
      have hany : ((('/' :: interSlash (x :: xt)) ++ '/' :: []).any (fun c => c != '/'))
          = true := by
        refine List.any_eq_true.2 ⟨c0, ?_, by simpa [bne_iff_ne]⟩
        exact List.mem_append.2 (Or.inl (List.mem_cons_of_mem '/'
          (mem_interSlash_head x xt hc0x)))
      -- stripping the trailing slash gives back `renderAbs (x :: xt)`
      have hstrip : ((('/' :: ((interSlash (x :: xt)).reverse ++ '/' :: [])).dropWhile
            (fun c => c == '/')).reverse = '/' :: interSlash (x :: xt)) := by
        rw [List.dropWhile_cons, if_pos (by simp), hds, List.cons_append,
          List.dropWhile_cons, if_neg (by simpa [beq_eq_false_iff_ne] using hd)]
        have h3 : d :: (ds ++ '/' :: []) = ('/' :: interSlash (x :: xt)).reverse := by
          rw [List.reverse_cons, hds]
          simp
        rw [h3, List.reverse_reverse]
      show pySplit (renderAbs ((x :: xt) ++ [y])) = (renderAbs (x :: xt), y)
      unfold pySplit
      simp only [htake, hdrop, List.reverse_reverse]
      rw [hhead]
      simp only [hany, eq_self_iff_true, if_true]
      rw [hstrip]
      rfl

/-! ### `os.path.join` of the split parts recovers the path -/

theorem pyJoin_split_renderAbs (segs : List Str) (hclean : CleanSegs segs) :
    pyJoin (renderAbs segs.dropLast) (segs.getLastD []) = renderAbs segs := by
  rcases List.eq_nil_or_concat segs with he | ⟨xs, y, he⟩
  · subst he; decide
  · rw [List.concat_eq_append] at he
    subst he
    have hy : CleanSeg y := hclean y (by simp)
    rcases List.exists_cons_of_ne_nil hy.1 with ⟨c0, crest, hy0⟩
    have hhead : y.head? ≠ some '/' := by
      rw [hy0]
      intro he2
      have : c0 = '/' := by simpa using he2
      exact hy.2.2.2 (this ▸ (hy0 ▸ List.mem_cons_self c0 crest))
    rw [List.dropLast_concat, List.getLastD_concat]
    cases xs with
    | nil =>
      show pyJoin (renderAbs []) y = renderAbs [y]
      unfold pyJoin
      rw [if_neg hhead, if_pos (Or.inr (by decide))]
      rfl
    | cons x xt =>
      have hxt : CleanSegs (x :: xt) :=
        fun s hs => hclean s (List.mem_append.2 (Or.inl hs))
      show pyJoin (renderAbs (x :: xt)) y = renderAbs ((x :: xt) ++ [y])
      unfold pyJoin
      rw [if_neg hhead, if_neg]
      · show ('/' :: interSlash (x :: xt)) ++ '/' :: y = '/' :: interSlash ((x :: xt) ++ [y])
        rw [interSlash_concat (x :: xt) y (List.cons_ne_nil x xt)]
        rfl
      · rintro (h | h)
        · exact List.cons_ne_nil '/' (interSlash (x :: xt)) h
        · exact renderAbs_getLast_ne_slash (x :: xt) (List.cons_ne_nil x xt) hxt h

/-! ### The GET handler on the two sides of the sandbox check -/

theorem get_file_eq_of_fail (root raw : Str) (fs : FS)
    (hfail : commonpfx (renderAbs (resolveSegs root raw)) root ≠ root) :
    get_file root raw fs = (GetResult.outOfSandbox, fs) := by
  have habs : abspath (pyJoin root raw) = renderAbs (resolveSegs root raw) := rfl
  simp only [get_file, habs]
  rw [if_pos hfail]

theorem get_file_eq_of_pass (root raw : Str) (fs : FS)
    (hpass : commonpfx (renderAbs (resolveSegs root raw)) root = root) :
    get_file root raw fs
      = (send_from_directory fs (renderAbs (resolveSegs root raw).dropLast)
          ((resolveSegs root raw).getLastD []), fs) := by
  have hclean := resolveSegs_clean root raw
  have habs : abspath (pyJoin root raw) = renderAbs (resolveSegs root raw) := rfl
  have habs2 : abspath (renderAbs (resolveSegs root raw)) = renderAbs (resolveSegs root raw) :=
    abspath_renderAbs _ hclean
  have hsplit := pySplit_renderAbs (resolveSegs root raw) hclean
  simp only [get_file, habs, habs2, hsplit]
  rw [if_neg (fun h => h hpass)]

theorem send_from_directory_resolved (fs : FS) (root raw : Str) :
    send_from_directory fs (renderAbs (resolveSegs root raw).dropLast)
        ((resolveSegs root raw).getLastD [])
      = match fsLookup fs (renderAbs (resolveSegs root raw)) with
        | some (Entry.file c) => GetResult.file c ((resolveSegs root raw).getLastD [])
        | _ => GetResult.notFound := by
  unfold send_from_directory
  rw [pyJoin_split_renderAbs _ (resolveSegs_clean root raw)]

/-! ### The startup root and the traversal scenario -/

theorem uploadDirectory_eq (cwd : List Str) (hclean : CleanSegs cwd) :
    uploadDirectory cwd = renderAbs (cwd ++ [cookedSeg]) := by
  cases cwd with
  | nil => decide
  | cons x xt =>
    have hxt : CleanSegs (x :: xt) := hclean
    have hjoin : pyJoin (renderAbs (x :: xt)) (("cooked_assets/").data)
        = renderAbs (x :: xt) ++ '/' :: (cookedSeg ++ '/' :: []) := by
      unfold pyJoin
      rw [if_neg (by decide), if_neg]
      · rfl
      · rintro (h | h)
        · exact List.cons_ne_nil '/' (interSlash (x :: xt)) h
        · exact renderAbs_getLast_ne_slash (x :: xt) (List.cons_ne_nil x xt) hxt h
    show abspath (pyJoin (renderAbs (x :: xt)) (("cooked_assets/").data)) = _
    rw [hjoin]
    unfold abspath
    have hns : ∀ u ∈ x :: xt, '/' ∉ u := fun u hu => (hxt u hu).2.2.2
    rw [splitOnSlash_append_slash, splitOnSlash_renderAbs (x :: xt) (List.cons_ne_nil x xt) hns,
      splitOnSlash_append_slash, splitOnSlash_noSlash cookedSeg (by decide)]
    show renderAbs (normSegsList (([] :: x :: xt) ++ [cookedSeg, []])) = _
    unfold normSegsList
    rw [List.foldl_append]
    have h1 : List.foldl normStep [] ([] :: x :: xt) = x :: xt := by
      rw [List.foldl_cons]
      exact foldl_normStep_clean (x :: xt) [] hxt
    rw [h1]
    have h2 : normStep (x :: xt) cookedSeg = (x :: xt) ++ [cookedSeg] := by
      rw [normStep, if_neg (by decide), if_neg (by decide)]
    rw [List.foldl_cons, h2, List.foldl_cons]
    rfl

theorem resolveSegs_uploadDirectory_passwd (cwd : List Str) (hclean : CleanSegs cwd) :
    resolveSegs (renderAbs (cwd ++ [cookedSeg])) passwdRaw
      = cwd.dropLast ++ [("etc").data, ("passwd").data] := by
  have hcooked : CleanSeg cookedSeg := by decide
  have hR : CleanSegs (cwd ++ [cookedSeg]) := by
    intro s hs
    rcases List.mem_append.1 hs with h | h
    · exact hclean s h
    · rw [List.mem_singleton.1 h]; exact hcooked
  have hRne : cwd ++ [cookedSeg] ≠ [] := by simp
  have hnoslash : ∀ s ∈ cwd ++ [cookedSeg], '/' ∉ s := fun s hs => (hR s hs).2.2.2
  have hjoin : pyJoin (renderAbs (cwd ++ [cookedSeg])) passwdRaw
      = renderAbs (cwd ++ [cookedSeg]) ++ '/' :: passwdRaw := by
    unfold pyJoin
    rw [if_neg (by decide), if_neg]
    rintro (h | h)
    · exact List.cons_ne_nil '/' (interSlash (cwd ++ [cookedSeg])) h
    · exact renderAbs_getLast_ne_slash (cwd ++ [cookedSeg]) hRne hR h
  unfold resolveSegs
  rw [hjoin, splitOnSlash_append_slash, splitOnSlash_renderAbs _ hRne hnoslash]
  have hraw : splitOnSlash passwdRaw
      = [("..").data, ("..").data, ("etc").data, ("passwd").data] := by decide
  rw [hraw]
  unfold normSegsList
  rw [List.foldl_append]
  have h1 : List.foldl normStep [] ([] :: (cwd ++ [cookedSeg])) = cwd ++ [cookedSeg] := by
    rw [List.foldl_cons]
    exact foldl_normStep_clean _ [] hR
  rw [h1]
  have hdd1 : normStep (cwd ++ [cookedSeg]) (("..").data) = cwd := by
    rw [normStep, if_neg (by decide), if_pos (by decide)]
    exact List.dropLast_concat
  have hdd2 : normStep cwd (("..").data) = cwd.dropLast := by
    rw [normStep, if_neg (by decide), if_pos (by decide)]
  have hetc : normStep cwd.dropLast (("etc").data) = cwd.dropLast ++ [("etc").data] := by
    rw [normStep, if_neg (by decide), if_neg (by decide)]
  have hpwd : normStep (cwd.dropLast ++ [("etc").data]) (("passwd").data)
      = cwd.dropLast ++ [("etc").data, ("passwd").data] := by
    rw [normStep, if_neg (by decide), if_neg (by decide)]
    simp
  rw [List.foldl_cons, hdd1, List.foldl_cons, hdd2, List.foldl_cons, hetc,
    List.foldl_cons, hpwd]
  rfl

/-! ### Claim theorems -/

/-- C1 (code_bug evaluation): with sandbox root `/data/cooked_assets`, the
request `../cooked_assets_evil/x` resolves to `/data/cooked_assets_evil/x`,
whose component list does not extend the root's component list — yet
`get_file` serves the file instead of rejecting with the out-of-sandbox
error, because `os.path.commonprefix` compares characters, not components. -/
theorem c1_sibling_escape_served :
    (normSegsList (splitOnSlash rootDCA)).isPrefixOf (resolveSegs rootDCA rawSibling) = false ∧
    (get_file rootDCA rawSibling fsSibling).1 = GetResult.file [7] (("x").data) := by
  decide

/-- C2 (code_bug evaluation): the upload of `hero.png` with body
`0xDE 0xAD 0xBE 0xEF` does not produce the claimed 201-created outcome; the
handler raises `UnboundLocalError` (an unhandled server fault) and writes
nothing. -/
theorem c2_upload_faults :
    post_file rootDCA heroRaw heroBytes fsRootOnly
      = (PostResult.unboundLocalError, fsRootOnly) ∧
    PostResult.unboundLocalError ≠ PostResult.created := by
  decide

/-- C3 (code_bug evaluation): writing `a.txt` twice does not succeed twice.
Both calls fault with `UnboundLocalError` before reaching the write, and even
with the unbound name repaired (`post_file_body`), the unconditional
`os.makedirs` call raises `FileExistsError` because the parent directory
already exists. -/
theorem c3_second_write_fails :
    post_file rootDCA (("a.txt").data) [1] fsRootOnly
      = (PostResult.unboundLocalError, fsRootOnly) ∧
    post_file rootDCA (("a.txt").data) [2]
        (post_file rootDCA (("a.txt").data) [1] fsRootOnly).2
      = (PostResult.unboundLocalError, fsRootOnly) ∧
    post_file_body rootDCA (("a.txt").data) [2] fsRootOnly
      = (PostResult.fileExistsError, fsRootOnly) := by
  decide

/-- C4 (code_bug evaluation): `write(p, content)` followed by `read(p)` does
not return `content`: the write faults with `UnboundLocalError` leaving the
filesystem unchanged, and the subsequent read answers 404 `NotFound`. -/
theorem c4_roundtrip_broken :
    post_file rootDCA heroRaw heroBytes fsRootOnly
      = (PostResult.unboundLocalError, fsRootOnly) ∧
    (get_file rootDCA heroRaw
        (post_file rootDCA heroRaw heroBytes fsRootOnly).2).1
      = GetResult.notFound := by
  decide

/-- C5: a GET request for the raw path `../../etc/passwd` is rejected with
the 400 out-of-sandbox error, for every process working directory (given by
canonical components) and every filesystem state: the resolved path
`/…/etc/passwd` is strictly shorter than the root string, so the root cannot
be a character prefix of it. -/
theorem c5_traversal_rejected (cwd : List Str) (fs : FS) (hclean : CleanSegs cwd) :
    (get_file (uploadDirectory cwd) passwdRaw fs).1 = GetResult.outOfSandbox := by
  rw [uploadDirectory_eq cwd hclean]
  have hres := resolveSegs_uploadDirectory_passwd cwd hclean
  have he : (("etc").data : Str).length = 3 := by decide
  have hp : (("passwd").data : Str).length = 6 := by decide
  have hck : cookedSeg.length = 13 := by decide
  have hfail : commonpfx (renderAbs (resolveSegs (renderAbs (cwd ++ [cookedSeg])) passwdRaw))
      (renderAbs (cwd ++ [cookedSeg])) ≠ renderAbs (cwd ++ [cookedSeg]) := by
    rw [hres]
    apply commonpfx_ne_of_length_lt
    have hlenS : (renderAbs (cwd.dropLast ++ [("etc").data, ("passwd").data])).length
        = sumLen cwd.dropLast + 9 + (cwd.dropLast.length + 2) := by
      rw [renderAbs_length _ (by simp)]
      simp only [sumLen, List.map_append, List.sum_append, List.map_cons, List.sum_cons,
        List.map_nil, List.sum_nil, List.length_append, List.length_cons, List.length_nil,
        he, hp]
      omega
    have hlenR : (renderAbs (cwd ++ [cookedSeg])).length
        = sumLen cwd + 13 + (cwd.length + 1) := by
      rw [renderAbs_length _ (by simp)]
      simp only [sumLen, List.map_append, List.sum_append, List.map_cons, List.sum_cons,
        List.map_nil, List.sum_nil, List.length_append, List.length_cons, List.length_nil,
        hck]
      omega
    rw [hlenS, hlenR]
    have hd1 := sumLen_dropLast_le cwd
    have hd2 : cwd.dropLast.length ≤ cwd.length := by
      rw [List.length_dropLast]; omega
    omega
  rw [get_file_eq_of_fail _ _ fs hfail]

/-- Witness for C5 at the concrete working directory `/srv/app`. -/
theorem c5_traversal_rejected_witness :
    CleanSegs [("srv").data, ("app").data] ∧
    (get_file (uploadDirectory [("srv").data, ("app").data]) passwdRaw []).1
      = GetResult.outOfSandbox :=
  ⟨by decide, c5_traversal_rejected [("srv").data, ("app").data] [] (by decide)⟩

/-- C6 (counterexample): reading the in-sandbox directory `sub` does not fail
with a distinct `NotAFileError`: `get_file` answers the same 404 `NotFound`
whether `sub` is a directory or absent — the code's only read outcomes are
out-of-sandbox, 404, and 200 (see `GetResult`), with no directory-specific
error. -/
theorem c6_dir_read_counterexample :
    fsLookup fsWithSubdir (("/data/cooked_assets/sub").data) = some Entry.dir ∧
    (get_file rootDCA subRaw fsWithSubdir).1 = GetResult.notFound ∧
    (get_file rootDCA subRaw fsRootOnly).1 = GetResult.notFound := by
  decide

/-- C6 (amended): for every request passing the sandbox check whose resolved
path holds no entry or holds a directory, the read fails with the 404
`NotFound` outcome — raw directory bytes are never returned — but the two
cases are not distinguished. -/
theorem c6_missing_or_dir_reads_notFound (root raw : Str) (fs : FS)
    (hpass : commonpfx (renderAbs (resolveSegs root raw)) root = root)
    (hmiss : fsLookup fs (renderAbs (resolveSegs root raw)) = none ∨
        fsLookup fs (renderAbs (resolveSegs root raw)) = some Entry.dir) :
    (get_file root raw fs).1 = GetResult.notFound := by
  rw [get_file_eq_of_pass root raw fs hpass]
  dsimp only
  rw [send_from_directory_resolved]
  rcases hmiss with h | h
  · rw [h]
  · rw [h]

/-- Witness for the amended C6 at the concrete missing path `nope`. -/
theorem c6_missing_or_dir_reads_notFound_witness :
    commonpfx (renderAbs (resolveSegs rootDCA (("nope").data))) rootDCA = rootDCA ∧
    (get_file rootDCA (("nope").data) fsRootOnly).1 = GetResult.notFound :=
  ⟨by decide, c6_missing_or_dir_reads_notFound rootDCA (("nope").data) fsRootOnly
    (by decide) (Or.inl (by decide))⟩

/-- C8 (counterexample): a successful download need not carry an attachment
name equal to the final segment of the requested path: the raw path
`hero/junk/..` (final raw segment `..`) is served with attachment name
`hero`, the final segment of the normalized resolved path. -/
theorem c8_attachment_counterexample :
    (get_file rootDCA heroDotsRaw fsHeroFile).1 = GetResult.file [1, 2] (("hero").data) ∧
    (splitOnSlash heroDotsRaw).getLastD [] = ("..").data ∧
    (("hero").data : Str) ≠ ("..").data := by
  decide

/-- C8 (amended): every successful download serves exactly the bytes stored
at the resolved path, with the suggested attachment filename equal to the
final component of the normalized resolved path. -/
theorem c8_attachment_is_resolved_basename (root raw : Str) (fs : FS)
    (c : List Nat) (name : Str)
    (h : (get_file root raw fs).1 = GetResult.file c name) :
    name = (resolveSegs root raw).getLastD [] ∧
    fsLookup fs (renderAbs (resolveSegs root raw)) = some (Entry.file c) := by
  by_cases hpass : commonpfx (renderAbs (resolveSegs root raw)) root = root
  · rw [get_file_eq_of_pass root raw fs hpass] at h
    dsimp only at h
    rw [send_from_directory_resolved] at h
    cases hl : fsLookup fs (renderAbs (resolveSegs root raw)) with
    | none =>
      rw [hl] at h
      simp at h
    | some e =>
      cases e with
      | dir =>
        rw [hl] at h
        simp at h
      | file c2 =>
        rw [hl] at h
        simp only [GetResult.file.injEq] at h
        exact ⟨h.2.symm, by rw [h.1]⟩
  · rw [get_file_eq_of_fail root raw fs (fun e => hpass e)] at h
    simp at h

/-- Witness for the amended C8 at the concrete request `hero`. -/
theorem c8_attachment_is_resolved_basename_witness :
    (("hero").data : Str) = (resolveSegs rootDCA (("hero").data)).getLastD [] ∧
    fsLookup fsHeroFile (renderAbs (resolveSegs rootDCA (("hero").data)))
      = some (Entry.file [1, 2]) :=
  c8_attachment_is_resolved_basename rootDCA (("hero").data) fsHeroFile [1, 2]
    (("hero").data) (by decide)

/-- C9 (counterexample): an upload whose resolved path fails the sandbox
check is not rejected with the out-of-sandbox error: the handler faults with
`UnboundLocalError` before the check runs.  (The filesystem is indeed left
unchanged.) -/
theorem c9_reject_counterexample :
    commonpfx (renderAbs (resolveSegs rootDCA (("..").data))) rootDCA ≠ rootDCA ∧
    post_file rootDCA (("..").data) [1] fsRootOnly
      = (PostResult.unboundLocalError, fsRootOnly) ∧
    PostResult.unboundLocalError ≠ PostResult.outOfSandbox := by
  decide

/-- C9 (amended): an upload whose resolved path fails the sandbox check
performs no filesystem mutation — it fails with `UnboundLocalError` before
any directory creation or file open, leaving the state exactly as it was
(the failure is a server fault, not the out-of-sandbox rejection). -/
theorem c9_rejected_upload_no_mutation (root fname : Str) (body : List Nat) (fs : FS)
    (_hfail : commonpfx (renderAbs (resolveSegs root fname)) root ≠ root) :
    post_file root fname body fs = (PostResult.unboundLocalError, fs) := rfl

/-- Witness for the amended C9 at the concrete out-of-sandbox upload `..`. -/
theorem c9_rejected_upload_no_mutation_witness :
    commonpfx (renderAbs (resolveSegs rootDCA (("..").data))) rootDCA ≠ rootDCA ∧
    post_file rootDCA (("..").data) [1] fsRootOnly
      = (PostResult.unboundLocalError, fsRootOnly) :=
  ⟨by decide, c9_rejected_upload_no_mutation rootDCA (("..").data) [1] fsRootOnly (by decide)⟩

/-- C10: a download request — any raw path, any outcome — performs no
filesystem mutation: the state after `get_file` is exactly the state
before. -/
theorem c10_get_file_state_unchanged (root raw : Str) (fs : FS) :
    (get_file root raw fs).2 = fs := by
  simp only [get_file]
  split
  · rfl
  · rfl
